import Mathlib

/-!
Verification of the Dijkstra shortest-path core (`src/rust/src/dijkstra.rs`).

The Rust code is shallowly embedded as follows.

* `Graph<T> = HashMap<T, Vec<(T, f64)>>` becomes an association list
  `List (T × List (T × W))`; edge weights (finite `f64` values, "finite
  non-negative real numbers" in the spec) are modelled by an arbitrary
  linearly ordered additive commutative monoid `W` (concrete witnesses use
  `W = ℤ`), and `f64::INFINITY` by `⊤` in `WithTop W`.
* The `HashMap`s `distances` and `predecessors` are modelled as a total
  backing function together with an explicit key list; a `map[key]` indexing
  operation that would panic in Rust on a missing key is modelled as an
  `Option`-returning lookup, and every function that can panic returns
  `Option` (`none` = panic).
* The `BinaryHeap` of `PQItem`s (a max-heap on the reversed distance order,
  hence a min-queue on distance) is modelled as a list from which `popMin`
  extracts an item of minimal distance; the tie-break among equal-distance
  items is unspecified in the source and the model fixes one choice.
* The `while let Some(..) = pq.pop()` loop is modelled by a single-step
  function `dstep` iterated with fuel; the fuel passed by `dijkstra` is
  `phi g s + 1` where `phi` (queue length plus the edges of unvisited keys)
  strictly decreases at every iteration, so the fuel is never exhausted and
  a `none` result of `dijkstra` corresponds exactly to a Rust panic.
-/

namespace Dij

variable {T : Type} [DecidableEq T] {W : Type} [LinearOrderedAddCommMonoid W]

/-- `pub type Graph<'a, T> = HashMap<T, Vec<(T, f64)>>` (dijkstra.rs line 14),
as an association list with weights in `W`. -/
abbrev Graph (T W : Type) : Type := List (T × List (T × W))

/-- `graph.get(&u)` — adjacency lookup, `none` when `u` has no entry. -/
def adjOf : Graph T W → T → Option (List (T × W))
  | [], _ => none
  | e :: rest, u => if u = e.1 then some e.2 else adjOf rest u

/-- `graph.keys()` — the key set of the adjacency map. -/
def keysList (g : Graph T W) : List T := g.map Prod.fst

/-- All edge weights of the graph are non-negative (the data-model invariant
assumed by Dijkstra's algorithm). -/
def nonnegW (g : Graph T W) : Prop := ∀ e ∈ g, ∀ vw ∈ e.2, (0 : W) ≤ vw.2

instance (g : Graph T W) : Decidable (nonnegW g) :=
  inferInstanceAs (Decidable (∀ e ∈ g, ∀ vw ∈ e.2, (0 : W) ≤ vw.2))

/-- `(v, w) ∈ graph[u]` — a directed edge of weight `w` from `u` to `v`. -/
def edgeW (g : Graph T W) (u v : T) (w : W) : Prop :=
  ∃ ns, adjOf g u = some ns ∧ (v, w) ∈ ns

/-- `WalkW g s v c`: there is a walk (a path, possibly repeating nodes) from
`s` to `v` in `g` whose edge weights sum to `c`.  The spec's "minimum over
all paths of the sum of edge weights" is phrased with this predicate. -/
inductive WalkW (g : Graph T W) (s : T) : T → W → Prop
  | nil : WalkW g s s 0
  | snoc {u v : T} {c w : W} : WalkW g s u c → edgeW g u v w → WalkW g s v (c + w)

/-- `ListWalk g l c`: the node list `l` is a walk through `g` whose
consecutive edges have weights summing to `c`. -/
inductive ListWalk (g : Graph T W) : List T → W → Prop
  | single (v : T) : ListWalk g [v] 0
  | cons {u v : T} {w c : W} {l : List T} :
      edgeW g u v w → ListWalk g (v :: l) c → ListWalk g (u :: v :: l) (w + c)

/-- The working state of `dijkstra` (dijkstra.rs lines 88-104): the
`distances` and `predecessors` maps (backing function plus key list), the
`visited` set and the priority queue. -/
structure DState (T W : Type) where
  dist : T → WithTop W
  ddom : List T
  pred : T → Option T
  pdom : List T
  visited : List T
  queue : List (T × W)

/-- `distances[v]` as a fallible lookup: `none` models the Rust panic on a
missing key. -/
def distFind (s : DState T W) (v : T) : Option (WithTop W) :=
  if v ∈ s.ddom then some (s.dist v) else none

/-- `BinaryHeap::pop` through the `PQItem` ordering (dijkstra.rs lines
51-56): extract an item of minimal distance.  Ties are broken towards the
earlier item, one concrete choice for the heap's unspecified tie-break. -/
def popMin : List (T × W) → Option ((T × W) × List (T × W))
  | [] => none
  | x :: xs =>
    match popMin xs with
    | none => some (x, xs)
    | some (m, rest) => if x.2 ≤ m.2 then some (x, xs) else some (m, x :: rest)

/-- The `for (neighbor, weight) in neighbors` relaxation loop (dijkstra.rs
lines 120-132).  `u` is the current node, `d` its popped distance.  The
lookup `distances[neighbor]` panics (returns `none`) when the neighbor has
no entry in the distance map. -/
def relaxList (u : T) (d : W) : List (T × W) → DState T W → Option (DState T W)
  | [], s => some s
  | vw :: rest, s =>
    match distFind s vw.1 with
    | none => none
    | some dv =>
      if ((d + vw.2 : W) : WithTop W) < dv then
        relaxList u d rest
          { dist := fun x => if x = vw.1 then ((d + vw.2 : W) : WithTop W) else s.dist x
            ddom := vw.1 :: s.ddom
            pred := fun x => if x = vw.1 then some u else s.pred x
            pdom := vw.1 :: s.pdom
            visited := s.visited
            queue := s.queue ++ [(vw.1, d + vw.2)] }
      else relaxList u d rest s

/-- Outcome of one iteration of the main loop: the loop either finished
(empty queue) or continues with a new state. -/
inductive StepOut (T W : Type) where
  | done (s : DState T W)
  | cont (s : DState T W)

/-- One iteration of the `while let Some(...) = pq.pop()` loop (dijkstra.rs
lines 106-134): pop a minimal item; discard it if the node is visited;
otherwise mark the node visited, discard if the popped distance exceeds the
recorded one, and relax the outgoing edges. -/
def dstep (g : Graph T W) (s : DState T W) : Option (StepOut T W) :=
  match popMin s.queue with
  | none => some (.done s)
  | some (ud, q1) =>
    if ud.1 ∈ s.visited then some (.cont { s with queue := q1 })
    else
      match distFind { s with queue := q1, visited := ud.1 :: s.visited } ud.1 with
      | none => none
      | some du =>
        if du < ((ud.2 : W) : WithTop W) then
          some (.cont { s with queue := q1, visited := ud.1 :: s.visited })
        else
          match adjOf g ud.1 with
          | none => some (.cont { s with queue := q1, visited := ud.1 :: s.visited })
          | some ns =>
            match relaxList ud.1 ud.2 ns { s with queue := q1, visited := ud.1 :: s.visited } with
            | none => none
            | some s3 => some (.cont s3)

/-- Total length of the adjacency lists of keys not yet visited. -/
def restPotential (g : Graph T W) (visited : List T) : Nat :=
  ((g.filter fun e => decide (e.1 ∉ visited)).map fun e => e.2.length).sum

/-- Termination measure of the main loop: queue length plus the edges of
unvisited keys.  It strictly decreases at every `cont` step. -/
def phi (g : Graph T W) (s : DState T W) : Nat :=
  s.queue.length + restPotential g s.visited

/-- The main loop, iterated with fuel; `none` is a panic or exhausted fuel
(the fuel chosen by `dijkstra` is proven never to be exhausted). -/
def loopFuel (g : Graph T W) : Nat → DState T W → Option (DState T W)
  | 0, _ => none
  | n + 1, s =>
    match dstep g s with
    | none => none
    | some (.done t) => some t
    | some (.cont t) => loopFuel g n t

/-- The main loop observed after a given number of iterations (for stating
properties of intermediate states of the run); once the queue is empty the
final state is repeated. -/
def iterSteps (g : Graph T W) : Nat → DState T W → Option (DState T W)
  | 0, s => some s
  | n + 1, s =>
    match dstep g s with
    | none => none
    | some (.done t) => some t
    | some (.cont t) => iterSteps g n t

/-- The initial state (dijkstra.rs lines 88-104): every graph key at
distance `∞` with predecessor `None`, then `distances.insert(start, 0)`
(note: no `predecessors` entry for `start` unless it is a key), and the
queue holding `(start, 0)`. -/
def initState (g : Graph T W) (start : T) : DState T W :=
  { dist := fun v => if v = start then ((0 : W) : WithTop W) else ⊤
    ddom := start :: keysList g
    pred := fun _ => none
    pdom := keysList g
    visited := []
    queue := [(start, 0)] }

/-- `pub struct DijkstraResult<T>` (dijkstra.rs lines 17-21). -/
structure DijkstraResult (T W : Type) where
  distances : T → WithTop W
  ddom : List T
  predecessors : T → Option T
  pdom : List T

/-- `result.distances[v]`: fallible lookup in the returned distance map. -/
def resDist (r : DijkstraResult T W) (v : T) : Option (WithTop W) :=
  if v ∈ r.ddom then some (r.distances v) else none

/-- `result.predecessors[v]`: fallible lookup in the predecessor map
(`none` = key absent = panic; `some none` = entry `None`). -/
def resPred (r : DijkstraResult T W) (v : T) : Option (Option T) :=
  if v ∈ r.pdom then some (r.predecessors v) else none

/-- `pub fn dijkstra` (dijkstra.rs lines 84-140); `none` models a panic. -/
def dijkstra (g : Graph T W) (start : T) : Option (DijkstraResult T W) :=
  (loopFuel g (phi g (initState g start) + 1) (initState g start)).map
    fun s => ⟨s.dist, s.ddom, s.pred, s.pdom⟩

/-- `pub struct PathResult<T>` (dijkstra.rs lines 24-28). -/
structure PathResult (T W : Type) where
  distance : WithTop W
  path : List T

/-- The backward walk of `dijkstra_path` (dijkstra.rs lines 165-171): push
the current node, then follow `result.predecessors[&node]`; the node list is
produced target-first and reversed by the caller.  `none` models either the
panic on a missing predecessor entry or (fuel exhaustion) a diverging walk;
the fuel passed by `dijkstra_path` is proven sufficient for completed runs. -/
def predWalk (r : DijkstraResult T W) : Nat → T → Option (List T)
  | 0, _ => none
  | n + 1, v =>
    match resPred r v with
    | none => none
    | some none => some [v]
    | some (some u) => (predWalk r n u).map fun l => v :: l

/-- `pub fn dijkstra_path` (dijkstra.rs lines 153-179); `some (Except.error ())`
is the `Err("No path exists ...")` return, `none` a panic. -/
def dijkstra_path (g : Graph T W) (start e : T) : Option (Except Unit (PathResult T W)) :=
  match dijkstra g start with
  | none => none
  | some r =>
    match resDist r e with
    | none => none
    | some de =>
      if de = ⊤ then some (Except.error ())
      else
        match predWalk r (g.length + 2) e with
        | none => none
        | some l => some (Except.ok { distance := de, path := l.reverse })

/-- Iterating a predecessor map from a node: stop at a node whose
predecessor value is `none`.  Used to state the predecessor-forest claim. -/
def predIter (p : T → Option T) : Nat → T → T
  | 0, v => v
  | n + 1, v =>
    match p v with
    | none => v
    | some u => predIter p n u

/-! ### Basic lemmas about graphs, walks and the queue -/

theorem adjOf_mem {g : Graph T W} {u : T} {ns : List (T × W)}
    (h : adjOf g u = some ns) : (u, ns) ∈ g := by
  induction g with
  | nil => simp [adjOf] at h
  | cons e rest ih =>
    rw [adjOf] at h
    by_cases hu : u = e.1
    · rw [if_pos hu, Option.some.injEq] at h
      subst h
      subst hu
      exact List.mem_cons_self _ _
    · rw [if_neg hu] at h
      exact List.mem_cons_of_mem _ (ih h)

theorem adjOf_eq_none {g : Graph T W} {u : T} :
    adjOf g u = none ↔ u ∉ keysList g := by
  induction g with
  | nil => simp [adjOf, keysList]
  | cons e rest ih =>
    rw [adjOf]
    by_cases hu : u = e.1
    · simp [hu, keysList]
    · simp only [if_neg hu, keysList, List.map_cons, List.mem_cons] at ih ⊢
      rw [ih]
      constructor
      · intro hn hmem
        rcases hmem with h1 | h2
        · exact hu h1
        · exact hn h2
      · intro hn h2
        exact hn (Or.inr h2)

theorem edgeW_nonneg {g : Graph T W} (hNN : nonnegW g) {u v : T} {w : W}
    (h : edgeW g u v w) : 0 ≤ w := by
  obtain ⟨ns, hadj, hmem⟩ := h
  exact hNN _ (adjOf_mem hadj) _ hmem

theorem walk_cost_nonneg {g : Graph T W} (hNN : nonnegW g) {s v : T} {c : W}
    (h : WalkW g s v c) : 0 ≤ c := by
  induction h with
  | nil => exact le_refl 0
  | snoc _ he ih => exact add_nonneg ih (edgeW_nonneg hNN he)

theorem popMin_eq_none {q : List (T × W)} : popMin q = none ↔ q = [] := by
  cases q with
  | nil => simp [popMin]
  | cons x xs =>
    simp only [popMin]
    constructor
    · intro h
      cases hx : popMin xs with
      | none => rw [hx] at h; simp at h
      | some m =>
        rcases m with ⟨m, rest⟩
        rw [hx] at h
        dsimp only at h
        by_cases hle : x.2 ≤ m.2
        · rw [if_pos hle] at h; simp at h
        · rw [if_neg hle] at h; simp at h
    · intro h; exact absurd h (List.cons_ne_nil _ _)

theorem popMin_spec {q : List (T × W)} {x : T × W} {q1 : List (T × W)}
    (h : popMin q = some (x, q1)) :
    q.Perm (x :: q1) ∧ ∀ y ∈ q, x.2 ≤ y.2 := by
  induction q generalizing x q1 with
  | nil => simp [popMin] at h
  | cons a as ih =>
    rw [popMin] at h
    cases has : popMin as with
    | none =>
      rw [has] at h
      have hnil : as = [] := popMin_eq_none.mp has
      simp only [Option.some.injEq, Prod.mk.injEq] at h
      obtain ⟨rfl, rfl⟩ := h
      subst hnil
      exact ⟨List.Perm.refl _, by simp⟩
    | some mr =>
      rcases mr with ⟨m, rest⟩
      rw [has] at h
      dsimp only at h
      obtain ⟨hperm, hmin⟩ := ih has
      by_cases hle : a.2 ≤ m.2
      · rw [if_pos hle] at h
        simp only [Option.some.injEq, Prod.mk.injEq] at h
        obtain ⟨rfl, rfl⟩ := h
        refine ⟨List.Perm.refl _, ?_⟩
        intro y hy
        rcases List.mem_cons.mp hy with rfl | hy
        · exact le_refl _
        · exact le_trans hle (hmin y hy)
      · rw [if_neg hle] at h
        simp only [Option.some.injEq, Prod.mk.injEq] at h
        obtain ⟨rfl, rfl⟩ := h
        constructor
        · exact (hperm.cons a).trans (List.Perm.swap m a rest)
        · intro y hy
          rcases List.mem_cons.mp hy with rfl | hy
          · exact le_of_lt (lt_of_not_le hle)
          · exact hmin y hy

theorem popMin_mem {q : List (T × W)} {x : T × W} {q1 : List (T × W)}
    (h : popMin q = some (x, q1)) : x ∈ q :=
  (popMin_spec h).1.mem_iff.mpr (List.mem_cons_self _ _)

theorem popMin_mem_iff {q : List (T × W)} {x : T × W} {q1 : List (T × W)}
    (h : popMin q = some (x, q1)) {y : T × W} : y ∈ q ↔ y = x ∨ y ∈ q1 := by
  rw [(popMin_spec h).1.mem_iff, List.mem_cons]

/-- Appending one edge to a walk. -/
theorem WalkW.snoc_edge {g : Graph T W} {s u v : T} {c w : W}
    (hw : WalkW g s u c) (he : edgeW g u v w) : WalkW g s v (c + w) :=
  WalkW.snoc hw he

/-! ### The loop invariant -/

/-- The invariant of the main loop of `dijkstra`.  `dist`, `pred`, `visited`
and `queue` are as in the Rust state; `start` is the source node. -/
structure Inv (g : Graph T W) (start : T) (s : DState T W) : Prop where
  keys_dom : ∀ v ∈ keysList g, v ∈ s.ddom
  start_dom : start ∈ s.ddom
  dom_keys : ∀ v ∈ s.ddom, v = start ∨ v ∈ keysList g
  fin_dom : ∀ v : T, s.dist v ≠ ⊤ → v ∈ s.ddom
  dist_real : ∀ (v : T) (c : W), s.dist v = (c : WithTop W) → WalkW g start v c
  dist_start : s.dist start ≤ ((0 : W) : WithTop W)
  queue_real : ∀ vd ∈ s.queue,
      s.dist vd.1 ≤ ((vd.2 : W) : WithTop W) ∧ WalkW g start vd.1 vd.2
  queue_dom : ∀ vd ∈ s.queue, vd.1 ∈ s.ddom
  queue_complete : ∀ v : T, v ∉ s.visited → s.dist v ≠ ⊤ →
      ∃ d : W, (v, d) ∈ s.queue ∧ ((d : W) : WithTop W) ≤ s.dist v
  visited_min : ∀ u ∈ s.visited, ∀ c : W, WalkW g start u c →
      s.dist u ≤ ((c : W) : WithTop W)
  visited_fin : ∀ u ∈ s.visited, s.dist u ≠ ⊤
  pred_edge : ∀ v u : T, s.pred v = some u → u ∈ s.visited ∧
      ∃ w : W, edgeW g u v w ∧ s.dist v = s.dist u + ((w : W) : WithTop W)
  fin_pred : ∀ v : T, s.dist v ≠ ⊤ → v = start ∨ s.pred v ≠ none
  pred_start : s.pred start = none
  visited_nodup : s.visited.Nodup
  pred_order : ∀ v u : T, s.pred v = some u → v ∈ s.visited →
      s.visited.indexOf v < s.visited.indexOf u
  pdom_iff : ∀ v : T, v ∈ s.pdom ↔ v ∈ keysList g ∨ s.pred v ≠ none

/-- Every outgoing edge of every visited node has been relaxed, except the
edges of `u0` still in `pending` (the remainder of `u0`'s relaxation loop). -/
def RelExc (g : Graph T W) (s : DState T W) (u0 : T) (pending : List (T × W)) : Prop :=
  ∀ u ∈ s.visited, ∀ ns, adjOf g u = some ns → ∀ vw ∈ ns,
    (u = u0 → vw ∉ pending) → s.dist vw.1 ≤ s.dist u + ((vw.2 : W) : WithTop W)

/-- Every outgoing edge of every visited node has been relaxed. -/
def RelAll (g : Graph T W) (s : DState T W) : Prop :=
  ∀ u ∈ s.visited, ∀ ns, adjOf g u = some ns → ∀ vw ∈ ns,
    s.dist vw.1 ≤ s.dist u + ((vw.2 : W) : WithTop W)

theorem relExc_nil {g : Graph T W} {s : DState T W} {u0 : T}
    (h : RelExc g s u0 []) : RelAll g s :=
  fun u hu ns hns vw hvw => h u hu ns hns vw hvw (fun _ => List.not_mem_nil _)

/-- The initial state satisfies the invariant. -/
theorem inv_init (g : Graph T W) (start : T) : Inv g start (initState g start) := by
  constructor
  case keys_dom => intro v hv; exact List.mem_cons_of_mem _ hv
  case start_dom => exact List.mem_cons_self _ _
  case dom_keys => intro v hv; simpa [initState] using List.mem_cons.mp hv
  case fin_dom =>
    intro v hv
    by_cases h : v = start
    · subst h; exact List.mem_cons_self _ _
    · exact absurd (by simp [initState, h]) hv
  case dist_real =>
    intro v c hc
    by_cases h : v = start
    · subst h
      simp only [initState, if_pos rfl, if_true] at hc
      have : (0 : W) = c := by exact_mod_cast hc
      subst this
      exact WalkW.nil
    · simp [initState, h] at hc
  case dist_start => simp [initState]
  case queue_real =>
    intro vd hvd
    simp only [initState, List.mem_singleton] at hvd
    subst hvd
    exact ⟨by simp [initState], WalkW.nil⟩
  case queue_dom =>
    intro vd hvd
    simp only [initState, List.mem_singleton] at hvd
    subst hvd
    exact List.mem_cons_self _ _
  case queue_complete =>
    intro v _ hfin
    by_cases h : v = start
    · subst h
      exact ⟨0, List.mem_singleton.mpr rfl, by simp [initState]⟩
    · exact absurd (by simp [initState, h]) hfin
  case visited_min => intro u hu; simp [initState] at hu
  case visited_fin => intro u hu; simp [initState] at hu
  case pred_edge => intro v u h; simp [initState] at h
  case fin_pred =>
    intro v hv
    by_cases h : v = start
    · exact Or.inl h
    · exact absurd (by simp [initState, h]) hv
  case pred_start => rfl
  case visited_nodup => exact List.nodup_nil
  case pred_order => intro v u h; simp [initState] at h
  case pdom_iff => intro v; simp [initState]

/-- The initial state trivially satisfies the relaxation invariant. -/
theorem relAll_init (g : Graph T W) (start : T) : RelAll g (initState g start) := by
  intro u hu
  simp [initState] at hu

/-- The crucial cut argument: when `(u, d)` is a minimal queue entry, every
walk from the source to a node outside the visited set costs at least `d`. -/
theorem cut_bound {g : Graph T W} {start : T} {s : DState T W} (hNN : nonnegW g)
    (hI : Inv g start s) (hR : RelAll g s) {d : W}
    (hmin : ∀ e ∈ s.queue, d ≤ e.2) :
    ∀ {x : T} {c : W}, WalkW g start x c → x ∉ s.visited → d ≤ c := by
  intro x c hw
  induction hw with
  | nil =>
    intro hx
    have hfin : s.dist start ≠ ⊤ := by
      intro h
      have := hI.dist_start
      rw [h] at this
      exact absurd this (WithTop.not_top_le_coe _)
    obtain ⟨d', hmem, hle⟩ := hI.queue_complete start hx hfin
    have h1 : d ≤ d' := hmin _ hmem
    have h2 : ((d' : W) : WithTop W) ≤ ((0 : W) : WithTop W) :=
      le_trans hle hI.dist_start
    exact le_trans h1 (by exact_mod_cast h2)
  | @snoc u v c w hwu he ih =>
    intro hx
    by_cases hu : u ∈ s.visited
    · obtain ⟨ns, hadj, hmem⟩ := he
      have h1 : s.dist v ≤ s.dist u + ((w : W) : WithTop W) :=
        hR u hu ns hadj (v, w) hmem
      have h2 : s.dist u ≤ ((c : W) : WithTop W) := hI.visited_min u hu c hwu
      have h3 : s.dist v ≤ (((c + w : W)) : WithTop W) := by
        rw [WithTop.coe_add]
        exact le_trans h1 (add_le_add_right h2 _)
      have hfin : s.dist v ≠ ⊤ := fun h => by
        rw [h] at h3
        exact absurd h3 (WithTop.not_top_le_coe _)
      obtain ⟨d', hdmem, hdle⟩ := hI.queue_complete v hx hfin
      have h4 : d ≤ d' := hmin _ hdmem
      have h5 : ((d' : W) : WithTop W) ≤ (((c + w : W)) : WithTop W) :=
        le_trans hdle h3
      exact le_trans h4 (by exact_mod_cast h5)
    · have h1 : d ≤ c := ih hu
      have h2 : 0 ≤ w := edgeW_nonneg hNN he
      exact le_trans h1 (le_add_of_nonneg_right h2)

theorem distFind_eq_some {s : DState T W} {v : T} {dv : WithTop W}
    (h : distFind s v = some dv) : v ∈ s.ddom ∧ dv = s.dist v := by
  rw [distFind] at h
  by_cases hv : v ∈ s.ddom
  · rw [if_pos hv, Option.some.injEq] at h
    exact ⟨hv, h.symm⟩
  · rw [if_neg hv] at h
    exact absurd h (Option.noConfusion)

/-- The relaxation loop over the outgoing edges of a just-finalized node `u0`
preserves the invariant, completes the relaxation of `u0`'s edges, and leaves
the visited set and the distances of visited nodes unchanged. -/
theorem relaxList_inv {g : Graph T W} {start : T} (hNN : nonnegW g)
    {u0 : T} {d : W} {ns0 : List (T × W)} (hadj : adjOf g u0 = some ns0)
    (hwu : WalkW g start u0 d) :
    ∀ (pending : List (T × W)) (s s' : DState T W),
      (∀ vw ∈ pending, vw ∈ ns0) →
      relaxList u0 d pending s = some s' →
      Inv g start s → RelExc g s u0 pending →
      u0 ∈ s.visited → s.dist u0 = ((d : W) : WithTop W) →
      (Inv g start s' ∧ RelAll g s') ∧ s'.visited = s.visited ∧
        (∀ x ∈ s.visited, s'.dist x = s.dist x) := by
  intro pending
  induction pending with
  | nil =>
    intro s s' _ hrel hI hRE _ _
    rw [relaxList, Option.some.injEq] at hrel
    subst hrel
    exact ⟨⟨hI, relExc_nil hRE⟩, rfl, fun x _ => rfl⟩
  | cons vw rest ih =>
    intro s s' hsub hrel hI hRE hu0vis hdu0
    rw [relaxList] at hrel
    cases hdf : distFind s vw.1 with
    | none => rw [hdf] at hrel; exact absurd hrel (Option.noConfusion)
    | some dv =>
      rw [hdf] at hrel
      dsimp only at hrel
      obtain ⟨hvdom, hdveq⟩ := distFind_eq_some hdf
      have hv0 : vw ∈ ns0 := hsub vw (List.mem_cons_self _ _)
      have hedge : edgeW g u0 vw.1 vw.2 := ⟨ns0, hadj, by simpa using hv0⟩
      have hwc : WalkW g start vw.1 (d + vw.2) := WalkW.snoc hwu hedge
      have hd0 : 0 ≤ d := walk_cost_nonneg hNN hwu
      have hw0 : 0 ≤ vw.2 := edgeW_nonneg hNN hedge
      by_cases hlt : ((d + vw.2 : W) : WithTop W) < dv
      · rw [if_pos hlt] at hrel
        rw [hdveq] at hlt
        -- the updated node is unvisited, distinct from u0 and from start
        have hnvis : vw.1 ∉ s.visited := by
          intro hmem
          exact absurd hlt (not_lt_of_le (hI.visited_min vw.1 hmem _ hwc))
        have hne0 : vw.1 ≠ u0 := fun h => hnvis (h ▸ hu0vis)
        have hnstart : vw.1 ≠ start := by
          intro h
          have h1 : ((d + vw.2 : W) : WithTop W) < ((0 : W) : WithTop W) :=
            lt_of_lt_of_le (h ▸ hlt) hI.dist_start
          have h2 : (0 : W) ≤ d + vw.2 := add_nonneg hd0 hw0
          have h3 : d + vw.2 < 0 := by exact_mod_cast h1
          exact absurd h3 (not_lt_of_le h2)
        -- notation for the updated state
        refine ?_
        set s1 : DState T W :=
          { dist := fun x => if x = vw.1 then ((d + vw.2 : W) : WithTop W) else s.dist x
            ddom := vw.1 :: s.ddom
            pred := fun x => if x = vw.1 then some u0 else s.pred x
            pdom := vw.1 :: s.pdom
            visited := s.visited
            queue := s.queue ++ [(vw.1, d + vw.2)] } with hs1
        have hd1v : s1.dist vw.1 = ((d + vw.2 : W) : WithTop W) := by
          simp [hs1]
        have hd1ne : ∀ x : T, x ≠ vw.1 → s1.dist x = s.dist x := by
          intro x hx
          simp [hs1, hx]
        have hd1le : ∀ x : T, s1.dist x ≤ s.dist x := by
          intro x
          by_cases hx : x = vw.1
          · subst hx; rw [hd1v]; exact le_of_lt hlt
          · rw [hd1ne x hx]
        have hp1ne : ∀ x : T, x ≠ vw.1 → s1.pred x = s.pred x := by
          intro x hx
          simp [hs1, hx]
        have hp1v : s1.pred vw.1 = some u0 := by simp [hs1]
        have hvisne : ∀ x ∈ s.visited, x ≠ vw.1 := fun x hx h => hnvis (h ▸ hx)
        have hI1 : Inv g start s1 := by
          constructor
          case keys_dom =>
            intro v hv; exact List.mem_cons_of_mem _ (hI.keys_dom v hv)
          case start_dom => exact List.mem_cons_of_mem _ hI.start_dom
          case dom_keys =>
            intro v hv
            rcases List.mem_cons.mp hv with rfl | hv
            · exact hI.dom_keys vw.1 hvdom
            · exact hI.dom_keys v hv
          case fin_dom =>
            intro v hv
            by_cases hx : v = vw.1
            · subst hx; exact List.mem_cons_self _ _
            · rw [hd1ne v hx] at hv
              exact List.mem_cons_of_mem _ (hI.fin_dom v hv)
          case dist_real =>
            intro v c hc
            by_cases hx : v = vw.1
            · subst hx
              rw [hd1v] at hc
              have : (d + vw.2 : W) = c := by exact_mod_cast hc
              exact this ▸ hwc
            · rw [hd1ne v hx] at hc
              exact hI.dist_real v c hc
          case dist_start =>
            rw [hd1ne start (Ne.symm hnstart)]
            exact hI.dist_start
          case queue_real =>
            intro vd hvd
            rcases List.mem_append.mp hvd with hvd | hvd
            · obtain ⟨h1, h2⟩ := hI.queue_real vd hvd
              exact ⟨le_trans (hd1le vd.1) h1, h2⟩
            · rw [List.mem_singleton] at hvd
              subst hvd
              exact ⟨le_of_eq hd1v, hwc⟩
          case queue_dom =>
            intro vd hvd
            rcases List.mem_append.mp hvd with hvd | hvd
            · exact List.mem_cons_of_mem _ (hI.queue_dom vd hvd)
            · rw [List.mem_singleton] at hvd
              subst hvd
              exact List.mem_cons_self _ _
          case queue_complete =>
            intro v hv hfin
            by_cases hx : v = vw.1
            · subst hx
              exact ⟨d + vw.2, List.mem_append_right _ (List.mem_singleton.mpr rfl),
                le_of_eq hd1v.symm⟩
            · rw [hd1ne v hx] at hfin
              obtain ⟨d', hmem, hle⟩ := hI.queue_complete v hv hfin
              exact ⟨d', List.mem_append_left _ hmem, le_trans hle (le_of_eq (hd1ne v hx).symm)⟩
          case visited_min =>
            intro u hu c hwalk
            rw [hd1ne u (hvisne u hu)]
            exact hI.visited_min u hu c hwalk
          case visited_fin =>
            intro u hu
            rw [hd1ne u (hvisne u hu)]
            exact hI.visited_fin u hu
          case pred_edge =>
            intro v u hpu
            by_cases hx : v = vw.1
            · subst hx
              rw [hp1v, Option.some.injEq] at hpu
              subst hpu
              refine ⟨hu0vis, vw.2, hedge, ?_⟩
              rw [hd1v, hd1ne u0 (Ne.symm hne0), hdu0]
              rw [← WithTop.coe_add]
            · rw [hp1ne v hx] at hpu
              obtain ⟨huvis, w, hew, hsum⟩ := hI.pred_edge v u hpu
              refine ⟨huvis, w, hew, ?_⟩
              rw [hd1ne v hx, hd1ne u (hvisne u huvis)]
              exact hsum
          case fin_pred =>
            intro v hv
            by_cases hx : v = vw.1
            · subst hx
              right
              rw [hp1v]
              exact Option.noConfusion
            · rw [hd1ne v hx] at hv
              rcases hI.fin_pred v hv with h | h
              · exact Or.inl h
              · right; rw [hp1ne v hx]; exact h
          case pred_start =>
            rw [hp1ne start (Ne.symm hnstart)]
            exact hI.pred_start
          case visited_nodup => exact hI.visited_nodup
          case pred_order =>
            intro v u hpu hvvis
            rw [hp1ne v (hvisne v hvvis)] at hpu
            exact hI.pred_order v u hpu hvvis
          case pdom_iff =>
            intro v
            by_cases hx : v = vw.1
            · subst hx
              constructor
              · intro _
                right
                rw [hp1v]
                exact Option.noConfusion
              · intro _
                exact List.mem_cons_self _ _
            · rw [hp1ne v hx]
              constructor
              · intro hv
                rcases List.mem_cons.mp hv with h | h
                · exact absurd h hx
                · exact (hI.pdom_iff v).mp h
              · intro hv
                exact List.mem_cons_of_mem _ ((hI.pdom_iff v).mpr hv)
        have hRE1 : RelExc g s1 u0 rest := by
          intro u hu ns hns vw' hvw' hcond
          by_cases hu0 : u = u0
          · subst hu0
            rw [hadj, Option.some.injEq] at hns
            subst hns
            by_cases hvv : vw' = vw
            · subst hvv
              rw [hd1ne u (Ne.symm hne0), hdu0]
              have h1 : s1.dist vw'.1 ≤ ((d + vw'.2 : W) : WithTop W) := le_of_eq hd1v
              rw [WithTop.coe_add] at h1
              exact h1
            · have hnotpend : vw' ∉ vw :: rest := by
                intro hmem
                rcases List.mem_cons.mp hmem with h | h
                · exact hvv h
                · exact hcond rfl h
              have hold := hRE u hu0vis ns0 hadj vw' hvw' (fun _ => hnotpend)
              calc s1.dist vw'.1 ≤ s.dist vw'.1 := hd1le vw'.1
                _ ≤ s.dist u + ((vw'.2 : W) : WithTop W) := hold
                _ = s1.dist u + ((vw'.2 : W) : WithTop W) := by
                    rw [hd1ne u (Ne.symm hne0)]
          · have hold := hRE u hu ns hns vw' hvw' (fun h => absurd h hu0)
            calc s1.dist vw'.1 ≤ s.dist vw'.1 := hd1le vw'.1
              _ ≤ s.dist u + ((vw'.2 : W) : WithTop W) := hold
              _ = s1.dist u + ((vw'.2 : W) : WithTop W) := by
                  rw [hd1ne u (hvisne u hu)]
        have hdu01 : s1.dist u0 = ((d : W) : WithTop W) := by
          rw [hd1ne u0 (Ne.symm hne0)]
          exact hdu0
        obtain ⟨hIR', hvis', hdists'⟩ :=
          ih s1 s' (fun x hx => hsub x (List.mem_cons_of_mem _ hx)) hrel hI1 hRE1 hu0vis hdu01
        refine ⟨hIR', hvis', ?_⟩
        intro x hx
        rw [hdists' x hx, hd1ne x (hvisne x hx)]
      · rw [if_neg hlt] at hrel
        rw [hdveq] at hlt
        have hRE1 : RelExc g s u0 rest := by
          intro u hu ns hns vw' hvw' hcond
          by_cases hu0 : u = u0
          · subst hu0
            rw [hadj, Option.some.injEq] at hns
            subst hns
            by_cases hvv : vw' = vw
            · subst hvv
              rw [hdu0, ← WithTop.coe_add]
              exact le_of_not_lt hlt
            · have hnotpend : vw' ∉ vw :: rest := by
                intro hmem
                rcases List.mem_cons.mp hmem with h | h
                · exact hvv h
                · exact hcond rfl h
              exact hRE u hu0vis ns0 hadj vw' hvw' (fun _ => hnotpend)
          · exact hRE u hu ns hns vw' hvw' (fun h => absurd h hu0)
        exact ih s s' (fun x hx => hsub x (List.mem_cons_of_mem _ hx)) hrel hI hRE1 hu0vis hdu0

/-- One `cont` iteration of the main loop preserves the invariant; moreover
the distances of already-visited nodes do not change and visited nodes stay
visited. -/
theorem dstep_cont_inv {g : Graph T W} {start : T} (hNN : nonnegW g)
    {s t : DState T W} (h : dstep g s = some (.cont t))
    (hI : Inv g start s) (hR : RelAll g s) :
    (Inv g start t ∧ RelAll g t) ∧
      ∀ x ∈ s.visited, t.dist x = s.dist x ∧ x ∈ t.visited := by
  rw [dstep] at h
  cases hpop : popMin s.queue with
  | none => rw [hpop] at h; simp at h
  | some p =>
    rcases p with ⟨ud, q1⟩
    rw [hpop] at h
    dsimp only at h
    have hudmem : ud ∈ s.queue := popMin_mem hpop
    have hmin : ∀ e ∈ s.queue, ud.2 ≤ e.2 := (popMin_spec hpop).2
    by_cases hvis : ud.1 ∈ s.visited
    · rw [if_pos hvis] at h
      simp only [Option.some.injEq, StepOut.cont.injEq] at h
      subst h
      refine ⟨⟨?_, hR⟩, fun x hx => ⟨rfl, hx⟩⟩
      constructor
      · exact hI.keys_dom
      · exact hI.start_dom
      · exact hI.dom_keys
      · exact hI.fin_dom
      · exact hI.dist_real
      · exact hI.dist_start
      · intro vd hvd
        exact hI.queue_real vd ((popMin_mem_iff hpop).mpr (Or.inr hvd))
      · intro vd hvd
        exact hI.queue_dom vd ((popMin_mem_iff hpop).mpr (Or.inr hvd))
      · intro v hv hfin
        obtain ⟨d', hmem, hle⟩ := hI.queue_complete v hv hfin
        rcases (popMin_mem_iff hpop).mp hmem with heq | hmem'
        · exfalso
          have : v = ud.1 := congrArg Prod.fst heq
          exact hv (this ▸ hvis)
        · exact ⟨d', hmem', hle⟩
      · exact hI.visited_min
      · exact hI.visited_fin
      · exact hI.pred_edge
      · exact hI.fin_pred
      · exact hI.pred_start
      · exact hI.visited_nodup
      · exact hI.pred_order
      · exact hI.pdom_iff
    · rw [if_neg hvis] at h
      cases hdf : distFind { s with queue := q1, visited := ud.1 :: s.visited } ud.1 with
      | none => rw [hdf] at h; simp at h
      | some du =>
        rw [hdf] at h
        dsimp only at h
        obtain ⟨huddom, hdueq⟩ := distFind_eq_some hdf
        obtain ⟨hqr1, hqr2⟩ := hI.queue_real ud hudmem
        by_cases hgd : du < ((ud.2 : W) : WithTop W)
        · exfalso
          have hfin : s.dist ud.1 ≠ ⊤ := by
            rw [← hdueq]
            exact ne_top_of_lt hgd
          obtain ⟨d', hmem, hle⟩ := hI.queue_complete ud.1 hvis hfin
          have h1 : ud.2 ≤ d' := hmin (ud.1, d') hmem
          have h2 : ((d' : W) : WithTop W) < ((ud.2 : W) : WithTop W) :=
            lt_of_le_of_lt (le_trans hle (le_of_eq hdueq.symm)) hgd
          have h3 : d' < ud.2 := by exact_mod_cast h2
          exact absurd h3 (not_lt_of_le h1)
        · rw [if_neg hgd] at h
          have hdeq : s.dist ud.1 = ((ud.2 : W) : WithTop W) := by
            refine le_antisymm hqr1 ?_
            rw [hdueq] at hgd
            exact not_lt.mp hgd
          -- invariant for the state with ud.1 freshly visited
          have hI2 : Inv g start { s with queue := q1, visited := ud.1 :: s.visited } := by
            constructor
            · exact hI.keys_dom
            · exact hI.start_dom
            · exact hI.dom_keys
            · exact hI.fin_dom
            · exact hI.dist_real
            · exact hI.dist_start
            · intro vd hvd
              exact hI.queue_real vd ((popMin_mem_iff hpop).mpr (Or.inr hvd))
            · intro vd hvd
              exact hI.queue_dom vd ((popMin_mem_iff hpop).mpr (Or.inr hvd))
            · intro v hv hfin
              have hvne : v ≠ ud.1 := fun heq => hv (heq ▸ List.mem_cons_self _ _)
              have hv' : v ∉ s.visited := fun hmem => hv (List.mem_cons_of_mem _ hmem)
              obtain ⟨d', hmem, hle⟩ := hI.queue_complete v hv' hfin
              rcases (popMin_mem_iff hpop).mp hmem with heq | hmem'
              · exact absurd (congrArg Prod.fst heq) hvne
              · exact ⟨d', hmem', hle⟩
            · intro u hu c hwalk
              rcases List.mem_cons.mp hu with rfl | hu
              · have hb : ud.2 ≤ c := cut_bound hNN hI hR hmin hwalk hvis
                show s.dist ud.1 ≤ ((c : W) : WithTop W)
                rw [hdeq]
                exact_mod_cast hb
              · exact hI.visited_min u hu c hwalk
            · intro u hu
              rcases List.mem_cons.mp hu with rfl | hu
              · show s.dist ud.1 ≠ ⊤
                rw [hdeq]
                exact WithTop.coe_ne_top
              · exact hI.visited_fin u hu
            · intro v u hpu
              obtain ⟨huvis, w, hew, hsum⟩ := hI.pred_edge v u hpu
              exact ⟨List.mem_cons_of_mem _ huvis, w, hew, hsum⟩
            · exact hI.fin_pred
            · exact hI.pred_start
            · exact List.nodup_cons.mpr ⟨hvis, hI.visited_nodup⟩
            · intro v u hpu hvvis
              have huvis : u ∈ s.visited := (hI.pred_edge v u hpu).1
              have hune : ud.1 ≠ u := fun heq => hvis (heq ▸ huvis)
              rcases List.mem_cons.mp hvvis with rfl | hv'
              · show List.indexOf ud.1 (ud.1 :: s.visited) < List.indexOf u (ud.1 :: s.visited)
                rw [List.indexOf_cons_self, List.indexOf_cons_ne _ hune]
                exact Nat.succ_pos _
              · have hvne : ud.1 ≠ v := fun heq => hvis (heq ▸ hv')
                show List.indexOf v (ud.1 :: s.visited) < List.indexOf u (ud.1 :: s.visited)
                rw [List.indexOf_cons_ne _ hvne, List.indexOf_cons_ne _ hune]
                exact Nat.succ_lt_succ (hI.pred_order v u hpu hv')
            · exact hI.pdom_iff
          cases hadj : adjOf g ud.1 with
          | none =>
            rw [hadj] at h
            dsimp only at h
            simp only [Option.some.injEq, StepOut.cont.injEq] at h
            subst h
            refine ⟨⟨hI2, ?_⟩, fun x hx => ⟨rfl, List.mem_cons_of_mem _ hx⟩⟩
            intro u hu ns hns vw hvw
            rcases List.mem_cons.mp hu with rfl | hu
            · exact absurd hns (by rw [hadj]; exact Option.noConfusion)
            · exact hR u hu ns hns vw hvw
          | some ns0 =>
            rw [hadj] at h
            dsimp only at h
            cases hrel : relaxList ud.1 ud.2 ns0
                { s with queue := q1, visited := ud.1 :: s.visited } with
            | none => rw [hrel] at h; simp at h
            | some s3 =>
              rw [hrel] at h
              simp only [Option.some.injEq, StepOut.cont.injEq] at h
              subst h
              have hRE2 : RelExc g { s with queue := q1, visited := ud.1 :: s.visited }
                  ud.1 ns0 := by
                intro u hu ns hns vw hvw hcond
                rcases List.mem_cons.mp hu with rfl | hu
                · rw [hadj, Option.some.injEq] at hns
                  subst hns
                  exact absurd hvw (hcond rfl)
                · have hune : u ≠ ud.1 := fun heq => hvis (heq ▸ hu)
                  exact hR u hu ns hns vw hvw
              obtain ⟨hIR3, hvis3, hdist3⟩ :=
                relaxList_inv hNN hadj hqr2 ns0 _ _ (fun vw hvw => hvw) hrel hI2 hRE2
                  (List.mem_cons_self _ _) hdeq
              refine ⟨hIR3, ?_⟩
              intro x hx
              have hx2 : x ∈ ud.1 :: s.visited := List.mem_cons_of_mem _ hx
              refine ⟨hdist3 x hx2, ?_⟩
              rw [hvis3]
              exact hx2

theorem popMin_length {q : List (T × W)} {x : T × W} {q1 : List (T × W)}
    (h : popMin q = some (x, q1)) : q.length = q1.length + 1 := by
  have := (popMin_spec h).1.length_eq
  simpa using this

theorem relaxList_queue_le {u : T} {d : W} :
    ∀ (pending : List (T × W)) (s s1 : DState T W),
      relaxList u d pending s = some s1 →
      s1.queue.length ≤ s.queue.length + pending.length ∧ s1.visited = s.visited := by
  intro pending
  induction pending with
  | nil =>
    intro s s1 h
    rw [relaxList, Option.some.injEq] at h
    subst h
    exact ⟨Nat.le_add_right _ _, rfl⟩
  | cons vw rest ih =>
    intro s s1 h
    rw [relaxList] at h
    cases hdf : distFind s vw.1 with
    | none => rw [hdf] at h; exact absurd h (Option.noConfusion)
    | some dv =>
      rw [hdf] at h
      dsimp only at h
      by_cases hlt : ((d + vw.2 : W) : WithTop W) < dv
      · rw [if_pos hlt] at h
        obtain ⟨h1, h2⟩ := ih _ _ h
        constructor
        · calc s1.queue.length ≤ (s.queue ++ [(vw.1, d + vw.2)]).length + rest.length := h1
            _ = s.queue.length + (vw :: rest).length := by simp; omega
        · exact h2
      · rw [if_neg hlt] at h
        obtain ⟨h1, h2⟩ := ih _ _ h
        exact ⟨le_trans h1 (by simp), h2⟩

theorem restPotential_cons {e : T × List (T × W)} {rest : Graph T W} {vis : List T} :
    restPotential (e :: rest) vis =
      (if e.1 ∉ vis then e.2.length else 0) + restPotential rest vis := by
  rw [restPotential, restPotential, List.filter_cons]
  by_cases hv : e.1 ∉ vis
  · rw [if_pos (by simpa using hv), if_pos hv]
    rw [List.map_cons, List.sum_cons]
  · rw [if_neg (by simpa using hv), if_neg hv]
    rw [Nat.zero_add]

theorem restPotential_mono {g : Graph T W} {u : T} {vis : List T} :
    restPotential g (u :: vis) ≤ restPotential g vis := by
  induction g with
  | nil => exact le_refl _
  | cons e rest ih =>
    rw [restPotential_cons, restPotential_cons]
    have h1 : (if e.1 ∉ u :: vis then e.2.length else 0) ≤
        (if e.1 ∉ vis then e.2.length else 0) := by
      by_cases hv : e.1 ∉ vis
      · rw [if_pos hv]
        split <;> omega
      · have : ¬ e.1 ∉ u :: vis := by
          intro hc
          exact hc (List.mem_cons_of_mem _ (not_not.mp hv))
        rw [if_neg hv, if_neg this]
    omega

theorem restPotential_visit {g : Graph T W} {u : T} {vis : List T}
    {ns : List (T × W)} (hu : u ∉ vis) (hadj : adjOf g u = some ns) :
    restPotential g (u :: vis) + ns.length ≤ restPotential g vis := by
  induction g with
  | nil => rw [adjOf] at hadj; exact absurd hadj (Option.noConfusion)
  | cons e rest ih =>
    rw [adjOf] at hadj
    rw [restPotential_cons, restPotential_cons]
    by_cases hue : u = e.1
    · rw [if_pos hue, Option.some.injEq] at hadj
      subst hadj
      have h1 : ¬ e.1 ∉ u :: vis := by
        intro hc
        exact hc (hue ▸ List.mem_cons_self _ _)
      rw [if_neg h1]
      have h2 : e.1 ∉ vis := fun hc => hu (hue ▸ hc)
      rw [if_pos h2]
      have h3 : restPotential rest (u :: vis) ≤ restPotential rest vis :=
        restPotential_mono
      omega
    · rw [if_neg hue] at hadj
      have h1 := ih hadj
      have h2 : (if e.1 ∉ u :: vis then e.2.length else 0) =
          (if e.1 ∉ vis then e.2.length else 0) := by
        by_cases hv : e.1 ∉ vis
        · rw [if_pos hv, if_pos]
          intro hc
          rcases List.mem_cons.mp hc with h | h
          · exact hue h.symm
          · exact hv h
        · rw [if_neg hv, if_neg]
          intro hc
          exact hc (List.mem_cons_of_mem _ (not_not.mp hv))
      omega

/-- The measure `phi` strictly decreases at every `cont` iteration, so the
fuel `phi g s + 1` passed by `dijkstra` always outlasts the loop: a `none`
result is a panic, never fuel exhaustion. -/
theorem dstep_phi_decrease {g : Graph T W} {s t : DState T W}
    (h : dstep g s = some (.cont t)) : phi g t < phi g s := by
  rw [dstep] at h
  cases hpop : popMin s.queue with
  | none => rw [hpop] at h; simp at h
  | some p =>
    rcases p with ⟨ud, q1⟩
    rw [hpop] at h
    dsimp only at h
    have hlen := popMin_length hpop
    by_cases hvis : ud.1 ∈ s.visited
    · rw [if_pos hvis] at h
      simp only [Option.some.injEq, StepOut.cont.injEq] at h
      subst h
      rw [phi, phi]
      show q1.length + restPotential g s.visited <
        s.queue.length + restPotential g s.visited
      omega
    · rw [if_neg hvis] at h
      cases hdf : distFind { s with queue := q1, visited := ud.1 :: s.visited } ud.1 with
      | none => rw [hdf] at h; simp at h
      | some du =>
        rw [hdf] at h
        dsimp only at h
        by_cases hgd : du < ((ud.2 : W) : WithTop W)
        · rw [if_pos hgd] at h
          simp only [Option.some.injEq, StepOut.cont.injEq] at h
          subst h
          rw [phi, phi]
          have := @restPotential_mono T _ W _ g ud.1 s.visited
          show q1.length + restPotential g (ud.1 :: s.visited) <
            s.queue.length + restPotential g s.visited
          omega
        · rw [if_neg hgd] at h
          cases hadj : adjOf g ud.1 with
          | none =>
            rw [hadj] at h
            dsimp only at h
            simp only [Option.some.injEq, StepOut.cont.injEq] at h
            subst h
            rw [phi, phi]
            have := @restPotential_mono T _ W _ g ud.1 s.visited
            show q1.length + restPotential g (ud.1 :: s.visited) <
              s.queue.length + restPotential g s.visited
            omega
          | some ns =>
            rw [hadj] at h
            dsimp only at h
            cases hrel : relaxList ud.1 ud.2 ns
                { s with queue := q1, visited := ud.1 :: s.visited } with
            | none => rw [hrel] at h; simp at h
            | some s3 =>
              rw [hrel] at h
              simp only [Option.some.injEq, StepOut.cont.injEq] at h
              subst h
              obtain ⟨hq3, hv3⟩ := relaxList_queue_le ns _ _ hrel
              have hrp := restPotential_visit hvis hadj
              rw [phi, phi, hv3]
              show s3.queue.length + restPotential g (ud.1 :: s.visited) <
                s.queue.length + restPotential g s.visited
              have hq3' : s3.queue.length ≤ q1.length + ns.length := by
                simpa using hq3
              omega

/-- The loop's value does not depend on the fuel, as soon as the fuel
exceeds the measure `phi`: the fuel chosen by `dijkstra` is sufficient. -/
theorem loopFuel_fuel_irrelevant {g : Graph T W} :
    ∀ (n m : ℕ) (s : DState T W), phi g s < n → phi g s < m →
      loopFuel g n s = loopFuel g m s := by
  intro n
  induction n with
  | zero => intro m s h; omega
  | succ n ih =>
    intro m s hn hm
    cases m with
    | zero => omega
    | succ m =>
      rw [loopFuel, loopFuel]
      cases hd : dstep g s with
      | none => rfl
      | some o =>
        cases o with
        | done t => rfl
        | cont t =>
          dsimp only
          have hdec := dstep_phi_decrease hd
          exact ih m t (by omega) (by omega)

/-- A `done` outcome returns the state unchanged, with an empty queue. -/
theorem dstep_done_eq {g : Graph T W} {s t : DState T W}
    (h : dstep g s = some (.done t)) : t = s ∧ s.queue = [] := by
  rw [dstep] at h
  cases hpop : popMin s.queue with
  | none =>
    rw [hpop] at h
    simp only [Option.some.injEq, StepOut.done.injEq] at h
    exact ⟨h.symm, popMin_eq_none.mp hpop⟩
  | some p =>
    rcases p with ⟨ud, q1⟩
    rw [hpop] at h
    dsimp only at h
    by_cases hvis : ud.1 ∈ s.visited
    · rw [if_pos hvis] at h; simp at h
    · rw [if_neg hvis] at h
      cases hdf : distFind { s with queue := q1, visited := ud.1 :: s.visited } ud.1 with
      | none => rw [hdf] at h; simp at h
      | some du =>
        rw [hdf] at h
        dsimp only at h
        by_cases hgd : du < ((ud.2 : W) : WithTop W)
        · rw [if_pos hgd] at h; simp at h
        · rw [if_neg hgd] at h
          cases hadj : adjOf g ud.1 with
          | none => rw [hadj] at h; simp at h
          | some ns0 =>
            rw [hadj] at h
            dsimp only at h
            cases hrel : relaxList ud.1 ud.2 ns0
                { s with queue := q1, visited := ud.1 :: s.visited } with
            | none => rw [hrel] at h; simp at h
            | some s3 => rw [hrel] at h; simp at h

/-- Running the loop to completion from an invariant state yields an
invariant state with an empty queue; visited distances are unchanged. -/
theorem loopFuel_some {g : Graph T W} {start : T} (hNN : nonnegW g) :
    ∀ (n : ℕ) (s t : DState T W), loopFuel g n s = some t →
      Inv g start s → RelAll g s →
      (Inv g start t ∧ RelAll g t) ∧ t.queue = [] ∧
        ∀ x ∈ s.visited, t.dist x = s.dist x ∧ x ∈ t.visited := by
  intro n
  induction n with
  | zero =>
    intro s t h
    rw [loopFuel] at h
    exact absurd h (by simp)
  | succ n ih =>
    intro s t h hI hR
    rw [loopFuel] at h
    cases hd : dstep g s with
    | none => rw [hd] at h; simp at h
    | some o =>
      rw [hd] at h
      cases o with
      | done u =>
        dsimp only at h
        simp only [Option.some.injEq] at h
        subst h
        obtain ⟨rfl, hq⟩ := dstep_done_eq hd
        exact ⟨⟨hI, hR⟩, hq, fun x hx => ⟨rfl, hx⟩⟩
      | cont u =>
        dsimp only at h
        obtain ⟨⟨hIu, hRu⟩, hpres⟩ := dstep_cont_inv hNN hd hI hR
        obtain ⟨hIRt, hqt, hprest⟩ := ih u t h hIu hRu
        refine ⟨hIRt, hqt, ?_⟩
        intro x hx
        obtain ⟨e1, m1⟩ := hpres x hx
        obtain ⟨e2, m2⟩ := hprest x m1
        exact ⟨e2.trans e1, m2⟩

/-- `iterSteps` propagates the invariant and preserves visited distances. -/
theorem iterSteps_inv {g : Graph T W} {start : T} (hNN : nonnegW g) :
    ∀ (n : ℕ) (s t : DState T W), iterSteps g n s = some t →
      Inv g start s → RelAll g s →
      (Inv g start t ∧ RelAll g t) ∧
        ∀ x ∈ s.visited, t.dist x = s.dist x ∧ x ∈ t.visited := by
  intro n
  induction n with
  | zero =>
    intro s t h hI hR
    rw [iterSteps, Option.some.injEq] at h
    subst h
    exact ⟨⟨hI, hR⟩, fun x hx => ⟨rfl, hx⟩⟩
  | succ n ih =>
    intro s t h hI hR
    rw [iterSteps] at h
    cases hd : dstep g s with
    | none => rw [hd] at h; simp at h
    | some o =>
      rw [hd] at h
      cases o with
      | done u =>
        dsimp only at h
        simp only [Option.some.injEq] at h
        subst h
        obtain ⟨rfl, _⟩ := dstep_done_eq hd
        exact ⟨⟨hI, hR⟩, fun x hx => ⟨rfl, hx⟩⟩
      | cont u =>
        dsimp only at h
        obtain ⟨⟨hIu, hRu⟩, hpres⟩ := dstep_cont_inv hNN hd hI hR
        obtain ⟨hIRt, hprest⟩ := ih u t h hIu hRu
        refine ⟨hIRt, ?_⟩
        intro x hx
        obtain ⟨e1, m1⟩ := hpres x hx
        obtain ⟨e2, m2⟩ := hprest x m1
        exact ⟨e2.trans e1, m2⟩

/-- An empty-queue state is a fixed point of the iterated loop. -/
theorem iterSteps_empty {g : Graph T W} {t : DState T W} (hq : t.queue = []) :
    ∀ b : ℕ, iterSteps g b t = some t := by
  intro b
  cases b with
  | zero => rw [iterSteps]
  | succ b =>
    rw [iterSteps]
    have hd : dstep g t = some (.done t) := by
      rw [dstep, hq]
      dsimp only [popMin]
    rw [hd]

/-- Decomposition of the iterated loop. -/
theorem iterSteps_add {g : Graph T W} :
    ∀ (a b : ℕ) (s : DState T W),
      iterSteps g (a + b) s = (iterSteps g a s).bind (iterSteps g b) := by
  intro a
  induction a with
  | zero =>
    intro b s
    rw [Nat.zero_add]
    rw [iterSteps]
    rfl
  | succ a ih =>
    intro b s
    have hform : a + 1 + b = (a + b) + 1 := by omega
    rw [hform, iterSteps]
    cases hd : dstep g s with
    | none => rw [iterSteps, hd]; rfl
    | some o =>
      cases o with
      | done u =>
        dsimp only
        rw [iterSteps, hd]
        dsimp only
        obtain ⟨rfl, hq⟩ := dstep_done_eq hd
        rw [Option.bind]
        exact (iterSteps_empty hq b).symm
      | cont u =>
        dsimp only
        rw [iterSteps, hd]
        dsimp only
        exact ih b u

/-- With an empty queue, every unvisited node has infinite distance. -/
theorem final_unvisited_top {g : Graph T W} {start : T} {t : DState T W}
    (hI : Inv g start t) (hq : t.queue = []) :
    ∀ v : T, v ∉ t.visited → t.dist v = ⊤ := by
  intro v hv
  by_contra hfin
  obtain ⟨d', hmem, _⟩ := hI.queue_complete v hv hfin
  rw [hq] at hmem
  exact List.not_mem_nil _ hmem

/-- The source's distance is exactly 0 in any invariant state, for graphs
with non-negative weights. -/
theorem dist_start_zero {g : Graph T W} {start : T} {t : DState T W}
    (hNN : nonnegW g) (hI : Inv g start t) :
    t.dist start = ((0 : W) : WithTop W) := by
  have hle := hI.dist_start
  have hfin : t.dist start ≠ ⊤ := by
    intro h
    rw [h] at hle
    exact absurd hle (WithTop.not_top_le_coe _)
  obtain ⟨c, hc⟩ := WithTop.ne_top_iff_exists.mp hfin
  have hw := hI.dist_real start c hc.symm
  have h0 : 0 ≤ c := walk_cost_nonneg hNN hw
  rw [← hc] at hle ⊢
  have hc0 : c ≤ 0 := by exact_mod_cast hle
  have : c = 0 := le_antisymm hc0 h0
  rw [this]

/-- After the queue empties, every node reachable from the source has been
visited. -/
theorem reachable_visited_final {g : Graph T W} {start : T} {t : DState T W}
    (hI : Inv g start t) (hR : RelAll g t) (hq : t.queue = []) :
    ∀ {v : T} {c : W}, WalkW g start v c → v ∈ t.visited := by
  intro v c hw
  induction hw with
  | nil =>
    by_contra hv
    have htop := final_unvisited_top hI hq start hv
    have hle := hI.dist_start
    rw [htop] at hle
    exact absurd hle (WithTop.not_top_le_coe _)
  | @snoc u v c w hwu he ih =>
    by_contra hv
    have htop := final_unvisited_top hI hq v hv
    obtain ⟨ns, hadj, hmem⟩ := he
    have h1 : t.dist v ≤ t.dist u + ((w : W) : WithTop W) := hR u ih ns hadj (v, w) hmem
    have hufin := hI.visited_fin u ih
    obtain ⟨cu, hcu⟩ := WithTop.ne_top_iff_exists.mp hufin
    rw [htop, ← hcu, ← WithTop.coe_add] at h1
    exact absurd h1 (WithTop.not_top_le_coe _)

/-- Unpacking a successful run of `dijkstra` into its final loop state. -/
theorem dijkstra_inv {g : Graph T W} {start : T} {r : DijkstraResult T W}
    (hNN : nonnegW g) (h : dijkstra g start = some r) :
    ∃ t : DState T W, Inv g start t ∧ RelAll g t ∧ t.queue = [] ∧
      r.distances = t.dist ∧ r.ddom = t.ddom ∧
      r.predecessors = t.pred ∧ r.pdom = t.pdom := by
  rw [dijkstra] at h
  cases hl : loopFuel g (phi g (initState g start) + 1) (initState g start) with
  | none => rw [hl] at h; simp at h
  | some t =>
    rw [hl] at h
    simp only [Option.map_some', Option.some.injEq] at h
    subst h
    obtain ⟨⟨hI, hR⟩, hq, _⟩ :=
      loopFuel_some hNN _ _ _ hl (inv_init g start) (relAll_init g start)
    exact ⟨t, hI, hR, hq, rfl, rfl, rfl, rfl⟩

/-! ### Claim theorems -/

/-- C1: for every graph with non-negative edge weights and every node `v`
reachable from the source, the distance recorded for `v` in the map returned
by `dijkstra` equals the minimum over all paths from the source to `v` of
the sum of the edge weights along the path: it is the cost of some path, and
is less than or equal to the cost of every path. -/
theorem dijkstra_shortest_distance {g : Graph T W} {start v : T} {c0 : W}
    (hNN : nonnegW g) (hreach : WalkW g start v c0) {r : DijkstraResult T W}
    (hrun : dijkstra g start = some r) :
    ∃ c : W, resDist r v = some ((c : W) : WithTop W) ∧ WalkW g start v c ∧
      ∀ c' : W, WalkW g start v c' → c ≤ c' := by
  obtain ⟨t, hI, hR, hq, hd, hdom, _, _⟩ := dijkstra_inv hNN hrun
  have hvis : v ∈ t.visited := reachable_visited_final hI hR hq hreach
  have hfin : t.dist v ≠ ⊤ := hI.visited_fin v hvis
  obtain ⟨c, hc⟩ := WithTop.ne_top_iff_exists.mp hfin
  refine ⟨c, ?_, hI.dist_real v c hc.symm, ?_⟩
  · rw [resDist, hdom, hd, if_pos (hI.fin_dom v hfin), ← hc]
  · intro c' hw'
    have := hI.visited_min v hvis c' hw'
    rw [← hc] at this
    exact_mod_cast this

/-- C1 witness. -/
def gC10 : Graph ℕ ℤ := [(0, [(1, 1), (2, 4)]), (1, [(2, 2), (3, 5)]), (2, [(3, 1)]), (3, [])]

theorem gC10_walk : WalkW gC10 0 3 4 := by
  have e1 : edgeW gC10 0 1 1 := ⟨[(1, 1), (2, 4)], rfl, by simp⟩
  have e2 : edgeW gC10 1 2 2 := ⟨[(2, 2), (3, 5)], rfl, by simp⟩
  have e3 : edgeW gC10 2 3 1 := ⟨[(3, 1)], rfl, by simp⟩
  have h : WalkW gC10 0 3 (((0 : ℤ) + 1 + 2) + 1) :=
    WalkW.snoc (WalkW.snoc (WalkW.snoc WalkW.nil e1) e2) e3
  norm_num at h
  exact h

theorem dijkstra_shortest_distance_witness :
    ∃ r : DijkstraResult ℕ ℤ, dijkstra gC10 0 = some r ∧ nonnegW gC10 ∧
      WalkW gC10 0 3 4 ∧
      ∃ c : ℤ, resDist r 3 = some ((c : ℤ) : WithTop ℤ) ∧ WalkW gC10 0 3 c ∧
        ∀ c' : ℤ, WalkW gC10 0 3 c' → c ≤ c' := by
  refine ⟨(dijkstra gC10 0).get (by rfl), (Option.some_get _).symm, by decide, gC10_walk, ?_⟩
  exact dijkstra_shortest_distance (by decide) gC10_walk (Option.some_get _).symm

/-- C5: for every graph with non-negative weights and every source, every
node unreachable from the source has distance infinity and predecessor
`None` in the result bundle returned by `dijkstra`. -/
theorem dijkstra_unreachable_infinite {g : Graph T W} {start v : T}
    (hNN : nonnegW g) (hunreach : ∀ c : W, ¬ WalkW g start v c)
    {r : DijkstraResult T W} (hrun : dijkstra g start = some r) :
    r.distances v = ⊤ ∧ r.predecessors v = none := by
  obtain ⟨t, hI, _, _, hd, _, hp, _⟩ := dijkstra_inv hNN hrun
  have hdtop : t.dist v = ⊤ := by
    by_contra hfin
    obtain ⟨c, hc⟩ := WithTop.ne_top_iff_exists.mp hfin
    exact hunreach c (hI.dist_real v c hc.symm)
  constructor
  · rw [hd]; exact hdtop
  · rw [hp]
    cases hpv : t.pred v with
    | none => rfl
    | some u =>
      exfalso
      obtain ⟨huvis, w, _, hsum⟩ := hI.pred_edge v u hpv
      have hufin := hI.visited_fin u huvis
      obtain ⟨cu, hcu⟩ := WithTop.ne_top_iff_exists.mp hufin
      rw [hdtop, ← hcu, ← WithTop.coe_add] at hsum
      exact WithTop.top_ne_coe hsum

/-- C5 witness graph: node 2 has no incoming edges. -/
def gC5 : Graph ℕ ℤ := [(0, [(1, 1)]), (1, []), (2, [])]

theorem gC5_no_walk : ∀ c : ℤ, ¬ WalkW gC5 0 2 c := by
  intro c h
  generalize hv : (2 : ℕ) = v at h
  cases h with
  | nil => exact absurd hv (by decide)
  | @snoc u _ c' w hwu he =>
    obtain ⟨ns, hadj, hmem⟩ := he
    rw [gC5] at hadj
    rw [adjOf] at hadj
    by_cases h0 : u = 0
    · rw [if_pos h0, Option.some.injEq] at hadj
      subst hadj
      rw [List.mem_singleton, Prod.mk.injEq] at hmem
      exact absurd (hv.trans hmem.1) (by decide)
    · rw [if_neg h0, adjOf] at hadj
      by_cases h1 : u = 1
      · rw [if_pos h1, Option.some.injEq] at hadj
        subst hadj
        exact List.not_mem_nil _ hmem
      · rw [if_neg h1, adjOf] at hadj
        by_cases h2 : u = 2
        · rw [if_pos h2, Option.some.injEq] at hadj
          subst hadj
          exact List.not_mem_nil _ hmem
        · rw [if_neg h2, adjOf] at hadj
          exact Option.noConfusion hadj

theorem dijkstra_unreachable_infinite_witness :
    ∃ r : DijkstraResult ℕ ℤ, dijkstra gC5 0 = some r ∧ nonnegW gC5 ∧
      (∀ c : ℤ, ¬ WalkW gC5 0 2 c) ∧
      r.distances 2 = ⊤ ∧ r.predecessors 2 = none := by
  refine ⟨(dijkstra gC5 0).get (by rfl), (Option.some_get _).symm, by decide, gC5_no_walk, ?_⟩
  exact dijkstra_unreachable_infinite (by decide) gC5_no_walk (Option.some_get _).symm

/-- The graph `{0 → 1}` in which node `1` appears only as an edge target and
is not a key of the adjacency map. -/
def gC2 : Graph ℕ ℤ := [(0, [(1, 1)])]

/-- C2 counter-evidence: the claim says `dijkstra` never fails and tolerates
nodes that appear only as edge targets.  On the graph `{0 → 1}` (weight 1,
non-negative) with source `0`, the relaxation loop evaluates
`distances[&1]` although `1` was never inserted into the distance map, which
panics in Rust (dijkstra.rs line 124); the model returns `none`. -/
theorem dijkstra_panics_on_edge_only_target : dijkstra gC2 0 = none := by rfl

/-- The graph with the single keyed node `0` and no edges; node `1` is
altogether unknown to it. -/
def gC3 : Graph ℕ ℤ := [(0, [])]

/-- C3 counter-evidence: the claim says an unknown target yields the
`NoPathExists` failure.  On the graph `{0 ↦ []}` with start `0` and the
unknown end `1`, `dijkstra_path` evaluates `result.distances[&1]` on a map
with no entry for `1`, which panics in Rust (dijkstra.rs line 160) instead
of returning the `Err`; the model returns `none` (panic), not
`some (Except.error ())`. -/
theorem dijkstra_path_panics_on_unknown_end : dijkstra_path gC3 0 1 = none := by rfl

/-- C10: on the graph `{A→B:1, A→C:4, B→C:2, B→D:5, C→D:1}` (nodes `A..D`
encoded as `0..3`), `dijkstra_path` from `A` to `D` succeeds and returns
distance 4 with path `[A, B, C, D]`. -/
theorem dijkstra_path_scenario2 :
    dijkstra_path gC10 0 3 =
      some (Except.ok { distance := ((4 : ℤ) : WithTop ℤ), path := [0, 1, 2, 3] }) := by
  rfl

/-- When the source is not a key of the graph, the single loop iteration
pops the source, finds no outgoing edges, and the run ends with the initial
maps unchanged (only the visited set gains the source). -/
theorem dijkstra_no_key {g : Graph T W} {start : T} (hstart : start ∉ keysList g) :
    dijkstra g start = some ⟨(initState g start).dist, (initState g start).ddom,
      (initState g start).pred, (initState g start).pdom⟩ := by
  have hadjn : adjOf g start = none := adjOf_eq_none.mpr hstart
  have hstep1 : dstep g (initState g start) =
      some (.cont { initState g start with visited := [start], queue := [] }) := by
    rw [dstep]
    have hpop : popMin ((initState g start).queue) = some ((start, (0 : W)), []) := rfl
    rw [hpop]
    dsimp only [initState]
    rw [if_neg (List.not_mem_nil start)]
    rw [distFind]
    dsimp only
    rw [if_pos (List.mem_cons_self start (keysList g))]
    dsimp only
    rw [if_pos rfl]
    rw [if_neg (lt_irrefl ((0 : W) : WithTop W))]
    rw [hadjn]
  have hstep2 : dstep g { initState g start with visited := [start], queue := ([] : List (T × W)) }
      = some (.done { initState g start with visited := [start], queue := ([] : List (T × W)) }) :=
    by rfl
  rw [dijkstra]
  have hphi : phi g (initState g start) + 1 = restPotential g [] + 1 + 1 := by
    have h1 : phi g (initState g start) = 1 + restPotential g [] := rfl
    rw [h1]
    omega
  rw [hphi, loopFuel, hstep1]
  dsimp only
  rw [loopFuel, hstep2]
  rfl

/-- C8: when the source node is absent from the graph's key set, `dijkstra`
still returns a distance map assigning 0 to the source itself and infinity
to every other node of the graph's key set. -/
theorem dijkstra_absent_source {g : Graph T W} {start : T}
    (hstart : start ∉ keysList g) :
    ∃ r : DijkstraResult T W, dijkstra g start = some r ∧
      resDist r start = some ((0 : W) : WithTop W) ∧
      ∀ v ∈ keysList g, resDist r v = some (⊤ : WithTop W) := by
  refine ⟨_, dijkstra_no_key hstart, ?_, ?_⟩
  · simp [resDist, initState]
  · intro v hv
    have hne : v ≠ start := fun h => hstart (h ▸ hv)
    simp [resDist, initState, hv, hne]

/-- C8 witness. -/
theorem dijkstra_absent_source_witness :
    (5 : ℕ) ∉ keysList gC3 ∧
    ∃ r : DijkstraResult ℕ ℤ, dijkstra gC3 5 = some r ∧
      resDist r 5 = some ((0 : ℤ) : WithTop ℤ) ∧
      ∀ v ∈ keysList gC3, resDist r v = some (⊤ : WithTop ℤ) :=
  ⟨by decide, dijkstra_absent_source (by decide)⟩

/-- C9: when the source is absent from the graph's key set, the returned
predecessor map has no entry for the source at all (not even an explicit
`None` value), so the backward walk of `dijkstra_path` for a path ending at
such a source looks up a key missing from the predecessor map: the walk
panics (`none` in the model) instead of completing. -/
theorem dijkstra_absent_source_no_pred_entry {g : Graph T W} {start : T}
    (hstart : start ∉ keysList g) :
    ∃ r : DijkstraResult T W, dijkstra g start = some r ∧ start ∉ r.pdom ∧
      resPred r start = none ∧ dijkstra_path g start start = none := by
  have hnp : start ∉ (initState g start).pdom := by
    simpa [initState] using hstart
  refine ⟨_, dijkstra_no_key hstart, hnp, ?_, ?_⟩
  · rw [resPred, if_neg hnp]
  · rw [dijkstra_path, dijkstra_no_key hstart]
    dsimp only
    have h1 : resDist (⟨(initState g start).dist, (initState g start).ddom,
        (initState g start).pred, (initState g start).pdom⟩ : DijkstraResult T W) start =
        some ((0 : W) : WithTop W) := by
      simp [resDist, initState]
    rw [h1]
    dsimp only
    rw [if_neg (WithTop.coe_ne_top)]
    have h2 : predWalk (⟨(initState g start).dist, (initState g start).ddom,
        (initState g start).pred, (initState g start).pdom⟩ : DijkstraResult T W)
        (g.length + 2) start = none := by
      have hform : g.length + 2 = (g.length + 1) + 1 := rfl
      rw [hform, predWalk]
      have h3 : resPred (⟨(initState g start).dist, (initState g start).ddom,
          (initState g start).pred, (initState g start).pdom⟩ : DijkstraResult T W) start =
          none := by
        rw [resPred, if_neg hnp]
      rw [h3]
    rw [h2]

/-- C9 witness. -/
theorem dijkstra_absent_source_no_pred_entry_witness :
    (5 : ℕ) ∉ keysList gC3 ∧
    ∃ r : DijkstraResult ℕ ℤ, dijkstra gC3 5 = some r ∧ 5 ∉ r.pdom ∧
      resPred r 5 = none ∧ dijkstra_path gC3 5 5 = none :=
  ⟨by decide, dijkstra_absent_source_no_pred_entry (by decide)⟩

/-- C6: during the main loop of `dijkstra` (observed after `n` and `m ≥ n`
iterations from the initial state), once a node is marked visited its
recorded distance never changes for the remainder of the run; and whenever
a popped queue item carries an already-visited node, the iteration discards
the item and does nothing else (no relaxation, no state change beyond
removing the item). -/
theorem visited_distance_stable {g : Graph T W} {start u : T}
    (hNN : nonnegW g) {n m : ℕ} (hnm : n ≤ m) {s t : DState T W}
    (hs : iterSteps g n (initState g start) = some s)
    (ht : iterSteps g m (initState g start) = some t)
    (hu : u ∈ s.visited) :
    (t.dist u = s.dist u ∧ u ∈ t.visited) ∧
      ∀ (s1 : DState T W) (ud : T × W) (q1 : List (T × W)),
        popMin s1.queue = some (ud, q1) → ud.1 ∈ s1.visited →
          dstep g s1 = some (.cont { s1 with queue := q1 }) := by
  constructor
  · obtain ⟨⟨hIs, hRs⟩, _⟩ :=
      iterSteps_inv hNN n (initState g start) s hs (inv_init g start) (relAll_init g start)
    have hm : m = n + (m - n) := by omega
    rw [hm, iterSteps_add, hs] at ht
    have ht' : iterSteps g (m - n) s = some t := ht
    obtain ⟨_, hpres⟩ := iterSteps_inv hNN (m - n) s t ht' hIs hRs
    exact hpres u hu
  · intro s1 ud q1 hpop hvis
    rw [dstep, hpop]
    dsimp only
    rw [if_pos hvis]

/-- C6 witness. -/
theorem visited_distance_stable_witness :
    nonnegW gC10 ∧ (1 : ℕ) ≤ 3 ∧
    ∃ s t : DState ℕ ℤ,
      iterSteps gC10 1 (initState gC10 0) = some s ∧
      iterSteps gC10 3 (initState gC10 0) = some t ∧ 0 ∈ s.visited ∧
      ((t.dist 0 = s.dist 0 ∧ 0 ∈ t.visited) ∧
        ∀ (s1 : DState ℕ ℤ) (ud : ℕ × ℤ) (q1 : List (ℕ × ℤ)),
          popMin s1.queue = some (ud, q1) → ud.1 ∈ s1.visited →
            dstep gC10 s1 = some (.cont { s1 with queue := q1 })) := by
  refine ⟨by decide, by decide,
    (iterSteps gC10 1 (initState gC10 0)).get (by rfl),
    (iterSteps gC10 3 (initState gC10 0)).get (by rfl),
    (Option.some_get _).symm, (Option.some_get _).symm, by decide, ?_⟩
  exact visited_distance_stable (by decide) (by decide)
    (Option.some_get _).symm (Option.some_get _).symm (by decide)

/-- Following the predecessor pointers from a visited node reaches the
source in at most as many steps as there are visited nodes (the visit order
strictly increases along the chain, so it cannot cycle). -/
theorem pred_chain_reaches {g : Graph T W} {start : T} {t : DState T W}
    (hI : Inv g start t) :
    ∀ (m : ℕ) (v : T), v ∈ t.visited →
      t.visited.length - t.visited.indexOf v ≤ m →
      ∃ k ≤ m, predIter t.pred k v = start := by
  intro m
  induction m with
  | zero =>
    intro v hv hlen
    exfalso
    have := List.indexOf_lt_length.mpr hv
    omega
  | succ m ih =>
    intro v hv hlen
    by_cases hvs : v = start
    · exact ⟨0, Nat.zero_le _, hvs⟩
    · have hfin : t.dist v ≠ ⊤ := hI.visited_fin v hv
      rcases hI.fin_pred v hfin with h | h
      · exact absurd h hvs
      · obtain ⟨u, hu⟩ := Option.ne_none_iff_exists'.mp h
        have huvis : u ∈ t.visited := (hI.pred_edge v u hu).1
        have hord := hI.pred_order v u hu hv
        have h1 := List.indexOf_lt_length.mpr huvis
        have hulen : t.visited.length - t.visited.indexOf u ≤ m := by omega
        obtain ⟨k, hk, hpk⟩ := ih u huvis hulen
        refine ⟨k + 1, Nat.succ_le_succ hk, ?_⟩
        rw [predIter, hu]
        exact hpk

/-- The visited list never exceeds the number of distinct nodes among the
source and the graph's keys. -/
theorem visited_card_le {g : Graph T W} {start : T} {t : DState T W}
    (hI : Inv g start t) :
    t.visited.length ≤ ((start :: keysList g).dedup).length := by
  have hsub : ∀ x ∈ t.visited.toFinset, x ∈ (start :: keysList g).toFinset := by
    intro x hx
    rw [List.mem_toFinset] at hx ⊢
    have hfin := hI.visited_fin x hx
    have hdom := hI.fin_dom x hfin
    rcases hI.dom_keys x hdom with h | h
    · exact h ▸ List.mem_cons_self _ _
    · exact List.mem_cons_of_mem _ h
  have h1 : t.visited.toFinset.card = t.visited.length :=
    List.toFinset_card_of_nodup hI.visited_nodup
  have h2 : (start :: keysList g).toFinset.card = ((start :: keysList g).dedup).length :=
    List.card_toFinset _
  have h3 := Finset.card_le_card (fun x hx => hsub x hx)
  omega

/-- C7: in the result of `dijkstra` on a graph with non-negative weights,
the predecessor pointers form a forest rooted at the source: from any
reached node (finite recorded distance), iterating the predecessor map
reaches the source in at most `|V|` steps (`|V|` = the number of distinct
nodes among the source and the graph's keys), so the backward walk never
loops forever; and the source itself has no predecessor. -/
theorem pred_forest_terminates {g : Graph T W} {start v : T}
    (hNN : nonnegW g) {r : DijkstraResult T W}
    (hrun : dijkstra g start = some r) (hfin : r.distances v ≠ ⊤) :
    (∃ k ≤ ((start :: keysList g).dedup).length,
        predIter r.predecessors k v = start) ∧
      r.predecessors start = none := by
  obtain ⟨t, hI, hR, hq, hd, _, hp, _⟩ := dijkstra_inv hNN hrun
  rw [hd] at hfin
  have hvis : v ∈ t.visited := by
    by_contra hnv
    exact hfin (final_unvisited_top hI hq v hnv)
  obtain ⟨k, hk, hpk⟩ :=
    pred_chain_reaches hI t.visited.length v hvis (by omega)
  refine ⟨⟨k, le_trans hk (visited_card_le hI), ?_⟩, ?_⟩
  · rw [hp]; exact hpk
  · rw [hp]; exact hI.pred_start

/-- C7 witness. -/
theorem pred_forest_terminates_witness :
    nonnegW gC10 ∧
    ∃ r : DijkstraResult ℕ ℤ, dijkstra gC10 0 = some r ∧ r.distances 3 ≠ ⊤ ∧
      (∃ k ≤ ((0 :: keysList gC10).dedup).length,
          predIter r.predecessors k 3 = 0) ∧
      r.predecessors 0 = none := by
  refine ⟨by decide, (dijkstra gC10 0).get (by rfl), (Option.some_get _).symm,
    by decide, ?_⟩
  exact pred_forest_terminates (by decide) (Option.some_get _).symm (by decide)

/-- Extending a node-list walk by one edge at its end. -/
theorem listWalk_append_edge {g : Graph T W} :
    ∀ {l : List T} {c : W}, ListWalk g l c → ∀ {u v : T} {w : W},
      l.getLast? = some u → edgeW g u v w → ListWalk g (l ++ [v]) (c + w) := by
  intro l c h
  induction h with
  | single x =>
    intro u v w hlast he
    simp only [List.getLast?_singleton, Option.some.injEq] at hlast
    subst hlast
    have h1 : ListWalk g ([x] ++ [v]) (w + 0) := ListWalk.cons he (ListWalk.single v)
    rw [add_comm w 0] at h1
    exact h1
  | @cons u0 v0 w0 c0 l0 he0 _ ih =>
    intro u v w hlast he
    rw [List.getLast?_cons_cons] at hlast
    have h1 := ih hlast he
    have h2 : ListWalk g (u0 :: ((v0 :: l0) ++ [v])) (w0 + (c0 + w)) :=
      ListWalk.cons he0 h1
    rw [← add_assoc] at h2
    exact h2

theorem resDist_eq_some {r : DijkstraResult T W} {v : T} {dv : WithTop W}
    (h : resDist r v = some dv) : v ∈ r.ddom ∧ dv = r.distances v := by
  rw [resDist] at h
  by_cases hv : v ∈ r.ddom
  · rw [if_pos hv, Option.some.injEq] at h
    exact ⟨hv, h.symm⟩
  · rw [if_neg hv] at h
    exact absurd h (Option.noConfusion)

/-- The backward walk of `dijkstra_path`, run on the maps of a final
invariant state, produces the chain from the target back to the source; the
reversed chain is a walk through the graph whose cost is the recorded
distance of the target. -/
theorem predWalk_spec {g : Graph T W} {start : T} {t : DState T W}
    {r : DijkstraResult T W} (hNN : nonnegW g) (hI : Inv g start t)
    (hpr : r.predecessors = t.pred) (hpd : r.pdom = t.pdom)
    (hdd : r.distances = t.dist) :
    ∀ (fuel : ℕ) (v : T) (l : List T),
      predWalk r fuel v = some l → t.dist v ≠ ⊤ →
      ∃ c : W, ListWalk g l.reverse c ∧ t.dist v = ((c : W) : WithTop W) ∧
        l.getLast? = some start ∧ l.head? = some v ∧
        (v = start → l = [start]) := by
  intro fuel
  induction fuel with
  | zero =>
    intro v l h
    rw [predWalk] at h
    exact absurd h (Option.noConfusion)
  | succ fuel ih =>
    intro v l h hfin
    rw [predWalk] at h
    cases hrp : resPred r v with
    | none => rw [hrp] at h; exact absurd h (Option.noConfusion)
    | some po =>
      rw [hrp] at h
      rw [resPred] at hrp
      by_cases hvp : v ∈ r.pdom
      · rw [if_pos hvp, Option.some.injEq] at hrp
        subst hrp
        cases hpo : r.predecessors v with
        | none =>
          rw [hpo] at h
          dsimp only at h
          rw [Option.some.injEq] at h
          subst h
          have hvstart : v = start := by
            rcases hI.fin_pred v hfin with h1 | h1
            · exact h1
            · rw [hpr] at hpo
              exact absurd hpo h1
          subst hvstart
          refine ⟨0, ?_, ?_, rfl, rfl, fun _ => rfl⟩
          · exact ListWalk.single v
          · exact dist_start_zero hNN hI
        | some u =>
          rw [hpo] at h
          dsimp only at h
          cases hpw : predWalk r fuel u with
          | none => rw [hpw] at h; exact absurd h (Option.noConfusion)
          | some l' =>
            rw [hpw] at h
            simp only [Option.map_some', Option.some.injEq] at h
            subst h
            rw [hpr] at hpo
            obtain ⟨huvis, w, he, hsum⟩ := hI.pred_edge v u hpo
            have hufin : t.dist u ≠ ⊤ := hI.visited_fin u huvis
            obtain ⟨c', hw', hdu', hlast', hhead', _⟩ := ih u l' hpw hufin
            have hlastrev : l'.reverse.getLast? = some u := by
              rw [List.getLast?_reverse]
              exact hhead'
            refine ⟨c' + w, ?_, ?_, ?_, rfl, ?_⟩
            · rw [List.reverse_cons]
              exact listWalk_append_edge hw' hlastrev he
            · rw [hsum, hdu', ← WithTop.coe_add]
            · cases l' with
              | nil => exact absurd hhead' (Option.noConfusion)
              | cons a l2 =>
                rw [List.getLast?_cons_cons]
                exact hlast'
            · intro hvstart
              exfalso
              rw [hvstart, hI.pred_start] at hpo
              exact Option.noConfusion hpo
      · rw [if_neg hvp] at hrp
        exact absurd hrp (Option.noConfusion)

/-- C4: whenever `dijkstra_path` succeeds, the returned path starts with
the start node and ends with the end node, the weights of consecutive edges
along the returned path sum to the reported distance, the reported distance
equals the distance-map entry for the end node, and when start = end the
path is the single-node path (length 1). -/
theorem dijkstra_path_correct {g : Graph T W} {start e : T}
    (hNN : nonnegW g) {pr : PathResult T W}
    (hrun : dijkstra_path g start e = some (Except.ok pr)) :
    pr.path.head? = some start ∧ pr.path.getLast? = some e ∧
      (∃ c : W, ListWalk g pr.path c ∧ pr.distance = ((c : W) : WithTop W)) ∧
      (∃ r, dijkstra g start = some r ∧ resDist r e = some pr.distance) ∧
      (start = e → pr.path = [start]) := by
  rw [dijkstra_path] at hrun
  cases hdj : dijkstra g start with
  | none => rw [hdj] at hrun; exact absurd hrun (Option.noConfusion)
  | some r =>
    rw [hdj] at hrun
    dsimp only at hrun
    cases hrd : resDist r e with
    | none => rw [hrd] at hrun; exact absurd hrun (Option.noConfusion)
    | some de =>
      rw [hrd] at hrun
      dsimp only at hrun
      by_cases hdtop : de = ⊤
      · rw [if_pos hdtop] at hrun
        simp at hrun
      · rw [if_neg hdtop] at hrun
        cases hpw : predWalk r (g.length + 2) e with
        | none => rw [hpw] at hrun; exact absurd hrun (Option.noConfusion)
        | some l =>
          rw [hpw] at hrun
          simp only [Option.some.injEq, Except.ok.injEq] at hrun
          subst hrun
          obtain ⟨t, hI, hR, hq, hd, hdom, hp, hpd⟩ := dijkstra_inv hNN hdj
          obtain ⟨hemem, hdeq⟩ := resDist_eq_some hrd
          have hde : de = t.dist e := by rw [hdeq, hd]
          have hfin : t.dist e ≠ ⊤ := by rw [← hde]; exact hdtop
          obtain ⟨c, hwalk, hdist, hlast, hhead, hstarteq⟩ :=
            predWalk_spec hNN hI hp hpd hd (g.length + 2) e l hpw hfin
          refine ⟨?_, ?_, ⟨c, hwalk, ?_⟩, ⟨r, rfl, ?_⟩, ?_⟩
          · show l.reverse.head? = some start
            rw [List.head?_reverse]
            exact hlast
          · show l.reverse.getLast? = some e
            rw [List.getLast?_reverse]
            exact hhead
          · show de = ((c : W) : WithTop W)
            rw [hde]
            exact hdist
          · exact hrd
          · intro hse
            have := hstarteq hse.symm
            show l.reverse = [start]
            rw [this]
            rfl

/-- C4 witness. -/
theorem dijkstra_path_correct_witness :
    nonnegW gC10 ∧
    ∃ pr : PathResult ℕ ℤ, dijkstra_path gC10 0 3 = some (Except.ok pr) ∧
      pr.path.head? = some 0 ∧ pr.path.getLast? = some 3 ∧
      (∃ c : ℤ, ListWalk gC10 pr.path c ∧ pr.distance = ((c : ℤ) : WithTop ℤ)) ∧
      (∃ r, dijkstra gC10 0 = some r ∧ resDist r 3 = some pr.distance) ∧
      ((0 : ℕ) = 3 → pr.path = [0]) := by
  refine ⟨by decide,
    { distance := ((4 : ℤ) : WithTop ℤ), path := [0, 1, 2, 3] }, by rfl, ?_⟩
  exact dijkstra_path_correct (by decide) (by rfl)

end Dij
